import Mathlib

/-!
Verification of the chat streaming pipeline of the techsurf-chat-agent
repository.

The development embeds, at the level of character lists:

* the line-splitting discipline shared by the server-side stream iterator
  (`server/src/services/llm-service.ts`, `createStreamIterator`) and the
  SDK widget built by `sdk/rollup.config.js` (`handleStreamingResponse`):
  append each decoded chunk to a carry buffer, split on newlines, retain
  the final segment as the new buffer;
* the server-side upstream stream iterator itself (skip non-`data: `
  lines, stop at `[DONE]`, skip undecodable payloads);
* the SDK consumer of `sdk/src/UniversalChatWidget.ts`, which splits each
  chunk independently and keeps no carry buffer;
* the SDK consumer of `sdk/rollup.config.js`, with its observer
  notifications (message added / updated / received);
* the streaming route handler of `server/src/routes/chat.ts`
  (`router.post('/stream')`): request validation, tool-call dispatch,
  content forwarding, completion, error wrapping and the `[DONE]`
  sentinel;
* the byte-level frame template used by every `res.write` in that
  handler.

`JSON.parse` is a platform primitive; it is modelled by a small
recursive-descent parser (`jsonParse`) over a `Json` value type.  The
model covers objects, arrays, strings with the common escapes, integer
numbers, booleans and null; numbers with fractions or exponents and
`\u` escapes are rejected, which is a restriction of the model, not of
the embedded code.  Theorems about the stream iterator are quantified
over an arbitrary decode function and so do not depend on this model;
the model is only used where a concrete decode is evaluated.
-/

/-! ## Characters used by the wire protocol -/

/-- The double-quote character. -/
def quoteC : Char := Char.ofNat 34

/-- The backslash character. -/
def bslashC : Char := Char.ofNat 92

/-- The opening-brace character. -/
def lbraceC : Char := Char.ofNat 123

/-- The closing-brace character. -/
def rbraceC : Char := Char.ofNat 125

/-- The opening-bracket character. -/
def lbrackC : Char := '['

/-- The closing-bracket character. -/
def rbrackC : Char := ']'

/-- The colon character. -/
def colonC : Char := ':'

/-- The comma character. -/
def commaC : Char := ','

/-- The newline character. -/
def nlC : Char := '\n'

/-! ## The Json value model -/

/-- JSON values, as produced by `JSON.parse`.  Numbers are modelled as
integers (see module comment). -/
inductive Json where
  | null : Json
  | bool (b : Bool) : Json
  | num (n : Int) : Json
  | str (s : List Char) : Json
  | arr (xs : List Json) : Json
  | obj (fields : List (List Char × Json)) : Json

/-- Field lookup on a parsed object: JavaScript property access
`j.k` yields the field value, or `undefined` (here `none`) when the
value is not an object or lacks the field. -/
def lookupField : List (List Char × Json) → List Char → Option Json
  | [], _ => none
  | (k', v) :: fs, k => if k' = k then some v else lookupField fs k

/-- JavaScript property access on a `Json` value (`undefined` is
`none`). -/
def getField (j : Json) (k : List Char) : Option Json :=
  match j with
  | Json.obj fs => lookupField fs k
  | _ => none

/-- JavaScript truthiness of a JSON value: `null`, `false`, `0` and the
empty string are falsy, everything else is truthy. -/
def jsTruthy : Json → Bool
  | Json.null => false
  | Json.bool b => b
  | Json.num n => n != 0
  | Json.str s => s ≠ []
  | Json.arr _ => true
  | Json.obj _ => true

/-- Truthiness of a possibly-`undefined` value. -/
def oTruthy : Option Json → Bool
  | none => false
  | some j => jsTruthy j

/-- Is the value exactly `null`? -/
def jsonIsNull : Json → Bool
  | Json.null => true
  | _ => false

/-! ## A model of `JSON.parse` -/

/-- Skip JSON whitespace. -/
def skipWs : List Char → List Char
  | [] => []
  | c :: cs =>
    if c = ' ' ∨ c = '\t' ∨ c = '\n' ∨ c = '\r' then skipWs cs else c :: cs

/-- Decode one escape character inside a JSON string.  `\u` escapes are
not modelled. -/
def escChar (c : Char) : Option Char :=
  if c = quoteC then some quoteC
  else if c = bslashC then some bslashC
  else if c = '/' then some '/'
  else if c = 'n' then some '\n'
  else if c = 't' then some '\t'
  else if c = 'r' then some '\r'
  else none

/-- Parse the body of a JSON string after the opening quote; returns the
decoded characters and the rest of the input after the closing quote. -/
def parseStrChars (fuel : Nat) (cs : List Char) : Option (List Char × List Char) :=
  match fuel, cs with
  | 0, _ => none
  | _, [] => none
  | fuel + 1, c :: rest =>
    if c = quoteC then some ([], rest)
    else if c = bslashC then
      match rest with
      | [] => none
      | e :: rest' =>
        match escChar e with
        | none => none
        | some ec =>
          match parseStrChars fuel rest' with
          | none => none
          | some (s, r) => some (ec :: s, r)
    else
      match parseStrChars fuel rest with
      | none => none
      | some (s, r) => some (c :: s, r)

/-- Parse an unsigned integer literal. -/
def parseDigits (cs : List Char) : Option (Nat × List Char) :=
  let ds := cs.takeWhile Char.isDigit
  let rest := cs.dropWhile Char.isDigit
  if ds = [] then none
  else some (ds.foldl (fun acc c => acc * 10 + (c.toNat - 48)) 0, rest)

mutual

/-- Parse one JSON value.  Fractions and exponents are not modelled. -/
def parseVal (fuel : Nat) (cs : List Char) : Option (Json × List Char) :=
  match fuel with
  | 0 => none
  | fuel + 1 =>
    let cs := skipWs cs
    match cs with
    | [] => none
    | c :: rest =>
      if c = quoteC then
        match parseStrChars (rest.length + 1) rest with
        | none => none
        | some (s, r) => some (Json.str s, r)
      else if c = lbraceC then parseMembers fuel rest
      else if c = lbrackC then parseElems fuel rest
      else if c = '-' then
        match parseDigits rest with
        | none => none
        | some (n, r) =>
          if r.headD ' ' = '.' ∨ r.headD ' ' = 'e' ∨ r.headD ' ' = 'E' then none
          else some (Json.num (-(n : Int)), r)
      else if c.isDigit then
        match parseDigits cs with
        | none => none
        | some (n, r) =>
          if r.headD ' ' = '.' ∨ r.headD ' ' = 'e' ∨ r.headD ' ' = 'E' then none
          else some (Json.num (n : Int), r)
      else if List.isPrefixOf "true".toList cs then some (Json.bool true, cs.drop 4)
      else if List.isPrefixOf "false".toList cs then some (Json.bool false, cs.drop 5)
      else if List.isPrefixOf "null".toList cs then some (Json.null, cs.drop 4)
      else none

/-- Parse the members of an object after the opening brace. -/
def parseMembers (fuel : Nat) (cs : List Char) : Option (Json × List Char) :=
  match fuel with
  | 0 => none
  | fuel + 1 =>
    let cs := skipWs cs
    match cs with
    | [] => none
    | c :: rest =>
      if c = rbraceC then some (Json.obj [], rest)
      else if c = quoteC then
        match parseStrChars (rest.length + 1) rest with
        | none => none
        | some (k, r) =>
          match skipWs r with
          | [] => none
          | c' :: r' =>
            if c' = colonC then
              match parseVal fuel r' with
              | none => none
              | some (v, r'') =>
                match parseMoreMembers fuel r'' with
                | none => none
                | some (fs, r''') => some (Json.obj ((k, v) :: fs), r''')
            else none
      else none

/-- Parse `, key : value` continuations of an object, or the closing
brace. -/
def parseMoreMembers (fuel : Nat) (cs : List Char) : Option (List (List Char × Json) × List Char) :=
  match fuel with
  | 0 => none
  | fuel + 1 =>
    match skipWs cs with
    | [] => none
    | c :: rest =>
      if c = rbraceC then some ([], rest)
      else if c = commaC then
        match skipWs rest with
        | [] => none
        | c' :: rest' =>
          if c' = quoteC then
            match parseStrChars (rest'.length + 1) rest' with
            | none => none
            | some (k, r) =>
              match skipWs r with
              | [] => none
              | c'' :: r' =>
                if c'' = colonC then
                  match parseVal fuel r' with
                  | none => none
                  | some (v, r'') =>
                    match parseMoreMembers fuel r'' with
                    | none => none
                    | some (fs, r''') => some ((k, v) :: fs, r''')
                else none
          else none
      else none

/-- Parse the elements of an array after the opening bracket. -/
def parseElems (fuel : Nat) (cs : List Char) : Option (Json × List Char) :=
  match fuel with
  | 0 => none
  | fuel + 1 =>
    match skipWs cs with
    | [] => none
    | c :: rest =>
      if c = rbrackC then some (Json.arr [], rest)
      else
        match parseVal fuel cs with
        | none => none
        | some (v, r) =>
          match parseMoreElems fuel r with
          | none => none
          | some (vs, r') => some (Json.arr (v :: vs), r')

/-- Parse `, value` continuations of an array, or the closing
bracket. -/
def parseMoreElems (fuel : Nat) (cs : List Char) : Option (List Json × List Char) :=
  match fuel with
  | 0 => none
  | fuel + 1 =>
    match skipWs cs with
    | [] => none
    | c :: rest =>
      if c = rbrackC then some ([], rest)
      else if c = commaC then
        match parseVal fuel rest with
        | none => none
        | some (v, r) =>
          match parseMoreElems fuel r with
          | none => none
          | some (vs, r') => some (v :: vs, r')
      else none

end

/-- Model of `JSON.parse`: it succeeds when the whole input is one JSON
value (up to whitespace), and fails otherwise. -/
def jsonParse (cs : List Char) : Option Json :=
  match parseVal (cs.length + 1) cs with
  | none => none
  | some (j, rest) => if skipWs rest = [] then some j else none

/-! ## The newline splitter shared by the stream consumers

Both `createStreamIterator` (`llm-service.ts`) and the rollup widget's
`handleStreamingResponse` run, per inbound chunk:

    buffer += chunk; const lines = buffer.split('\n');
    buffer = lines.pop() || ''; for (const line of lines) ...

`splitNl` is JavaScript `String.prototype.split` with separator `'\n'`,
on character lists. -/

/-- Split on newlines; the result always has one more segment than the
number of newlines, so it is never empty. -/
def splitNl : List Char → List (List Char)
  | [] => [[]]
  | c :: cs =>
    match splitNl cs with
    | [] => [[]]
    | s :: ss => if c = nlC then [] :: s :: ss else (c :: s) :: ss

/-- The complete lines of a text: all split segments except the final
(possibly incomplete) one.  These are the lines the consumers process. -/
def completeLines (s : List Char) : List (List Char) := (splitNl s).dropLast

/-- The final split segment of a text: the text after its last newline.
This is what `buffer = lines.pop() || ''` retains. -/
def tailSeg (s : List Char) : List Char := ((splitNl s).getLast?).getD []

/-- One round of the shared buffering discipline: append the chunk to
the carry buffer, split on newlines, keep the last segment as the new
buffer and hand out the preceding complete lines. -/
def feed (buf chunk : List Char) : List Char × List (List Char) :=
  let parts := splitNl (buf ++ chunk)
  ((parts.getLast?).getD [], parts.dropLast)

/-- Drive `feed` over a whole chunk sequence, collecting the lines
handed out, in order. -/
def runFeed (b : List Char) : List (List Char) → List Char × List (List Char)
  | [] => (b, [])
  | c :: cs =>
    let r := feed b c
    let r' := runFeed r.1 cs
    (r'.1, r.2 ++ r'.2)

/-- Reassemble a line decomposition: each line followed by a newline,
then the retained buffer. -/
def joinLines (ls : List (List Char)) (b : List Char) : List Char :=
  (ls.map (fun l => l ++ [nlC])).flatten ++ b

theorem splitNl_cons (c : Char) (cs : List Char) :
    splitNl (c :: cs) = match splitNl cs with
      | [] => [[]]
      | s :: ss => if c = nlC then [] :: s :: ss else (c :: s) :: ss := rfl

theorem splitNl_ne_nil (s : List Char) : splitNl s ≠ [] := by
  cases s with
  | nil => simp [splitNl]
  | cons c cs =>
    rw [splitNl_cons]
    cases h : splitNl cs with
    | nil => simp
    | cons s0 ss => by_cases hc : c = nlC <;> simp [hc]

theorem joinLines_nil (b : List Char) : joinLines [] b = b := by
  simp [joinLines]

theorem joinLines_cons (l : List Char) (ls : List (List Char)) (b : List Char) :
    joinLines (l :: ls) b = l ++ nlC :: joinLines ls b := by
  simp [joinLines]

theorem joinLines_append (ls ls' : List (List Char)) (b : List Char) :
    joinLines (ls ++ ls') b = joinLines ls (joinLines ls' b) := by
  simp [joinLines, List.append_assoc]

theorem joinLines_append_right (ls : List (List Char)) (b y : List Char) :
    joinLines ls (b ++ y) = joinLines ls b ++ y := by
  simp [joinLines, List.append_assoc]

theorem nl_not_mem_splitNl : ∀ (s : List Char), ∀ l ∈ splitNl s, nlC ∉ l := by
  intro s
  induction s with
  | nil => intro l hl; simp [splitNl] at hl; simp [hl]
  | cons c cs ih =>
    intro l hl
    rw [splitNl_cons] at hl
    cases h : splitNl cs with
    | nil => exact absurd h (splitNl_ne_nil cs)
    | cons s0 ss =>
      rw [h] at hl
      by_cases hc : c = nlC
      · simp only [if_pos hc] at hl
        rcases List.mem_cons.mp hl with h1 | h1
        · simp [h1]
        · exact ih l (h ▸ h1)
      · simp only [if_neg hc] at hl
        rcases List.mem_cons.mp hl with h1 | h1
        · subst h1
          intro hmem
          rcases List.mem_cons.mp hmem with h2 | h2
          · exact hc h2.symm
          · exact ih s0 (h ▸ List.mem_cons_self s0 ss) h2
        · exact ih l (h ▸ List.mem_cons.mpr (Or.inr h1))

theorem dropLast_cons_of_ne_nil {α : Type} (a : α) {l : List α} (h : l ≠ []) :
    (a :: l).dropLast = a :: l.dropLast := by
  cases l with
  | nil => exact absurd rfl h
  | cons b t => rfl

theorem getLast?_cons_of_ne_nil {α : Type} (a : α) {l : List α} (h : l ≠ []) :
    (a :: l).getLast? = l.getLast? := by
  cases l with
  | nil => exact absurd rfl h
  | cons b t => rfl

theorem joinLines_splitNl : ∀ s : List Char,
    joinLines (completeLines s) (tailSeg s) = s := by
  intro s
  induction s with
  | nil => simp [completeLines, tailSeg, splitNl, joinLines]
  | cons c cs ih =>
    unfold completeLines tailSeg at *
    rw [splitNl_cons]
    cases h : splitNl cs with
    | nil => exact absurd h (splitNl_ne_nil cs)
    | cons s0 ss =>
      rw [h] at ih
      by_cases hc : c = nlC
      · simp only [if_pos hc]
        rw [dropLast_cons_of_ne_nil [] (List.cons_ne_nil s0 ss),
          getLast?_cons_of_ne_nil [] (List.cons_ne_nil s0 ss), joinLines_cons]
        simp [hc, ih]
      · simp only [if_neg hc]
        cases ss with
        | nil =>
          simp only [List.dropLast_single, List.getLast?_singleton, Option.getD_some]
          simp only [List.dropLast_single, List.getLast?_singleton, Option.getD_some,
            joinLines_nil] at ih
          rw [joinLines_nil, ih]
        | cons s1 ss' =>
          rw [dropLast_cons_of_ne_nil (c :: s0) (List.cons_ne_nil s1 ss'),
            getLast?_cons_of_ne_nil (c :: s0) (List.cons_ne_nil s1 ss'), joinLines_cons]
          rw [dropLast_cons_of_ne_nil s0 (List.cons_ne_nil s1 ss'),
            getLast?_cons_of_ne_nil s0 (List.cons_ne_nil s1 ss'), joinLines_cons] at ih
          rw [List.cons_append, ih]

theorem firstNl_unique : ∀ (x : List Char) {y u v : List Char}, nlC ∉ x → nlC ∉ y →
    x ++ nlC :: u = y ++ nlC :: v → x = y ∧ u = v := by
  intro x
  induction x with
  | nil =>
    intro y u v _ hy heq
    cases y with
    | nil => simpa using heq
    | cons d y' =>
      simp only [List.nil_append, List.cons_append, List.cons.injEq] at heq
      exact absurd (heq.1 ▸ List.mem_cons_self d y') hy
  | cons a x' ih =>
    intro y u v hx hy heq
    cases y with
    | nil =>
      simp only [List.cons_append, List.nil_append, List.cons.injEq] at heq
      exact absurd (heq.1 ▸ List.mem_cons_self a x') hx
    | cons d y' =>
      simp only [List.cons_append, List.cons.injEq] at heq
      have hx' : nlC ∉ x' := fun h => hx (List.mem_cons.mpr (Or.inr h))
      have hy' : nlC ∉ y' := fun h => hy (List.mem_cons.mpr (Or.inr h))
      obtain ⟨h1, h2⟩ := ih hx' hy' heq.2
      exact ⟨by rw [heq.1, h1], h2⟩

theorem joinLines_inj : ∀ (ls : List (List Char)) {ls' : List (List Char)}
    {b b' : List Char}, (∀ l ∈ ls, nlC ∉ l) → (∀ l ∈ ls', nlC ∉ l) →
    nlC ∉ b → nlC ∉ b' → joinLines ls b = joinLines ls' b' → ls = ls' ∧ b = b' := by
  intro ls
  induction ls with
  | nil =>
    intro ls' b b' _ hls' hb hb' heq
    cases ls' with
    | nil => simpa [joinLines_nil] using heq
    | cons l' t' =>
      rw [joinLines_nil, joinLines_cons] at heq
      have : nlC ∈ l' ++ nlC :: joinLines t' b' := by simp
      exact absurd (heq ▸ this) hb
  | cons l t ih =>
    intro ls' b b' hls hls' hb hb' heq
    cases ls' with
    | nil =>
      rw [joinLines_cons, joinLines_nil] at heq
      have : nlC ∈ l ++ nlC :: joinLines t b := by simp
      exact absurd (heq ▸ this) hb'
    | cons l' t' =>
      rw [joinLines_cons, joinLines_cons] at heq
      have h1 : nlC ∉ l := hls l (List.mem_cons_self l t)
      have h2 : nlC ∉ l' := hls' l' (List.mem_cons_self l' t')
      obtain ⟨he, hrest⟩ := firstNl_unique l h1 h2 heq
      have ht : ∀ x ∈ t, nlC ∉ x := fun x hx => hls x (List.mem_cons.mpr (Or.inr hx))
      have ht' : ∀ x ∈ t', nlC ∉ x := fun x hx => hls' x (List.mem_cons.mpr (Or.inr hx))
      obtain ⟨hteq, hbeq⟩ := ih ht ht' hb hb' hrest
      exact ⟨by rw [he, hteq], hbeq⟩

theorem noNl_completeLines (s : List Char) : ∀ l ∈ completeLines s, nlC ∉ l :=
  fun l hl => nl_not_mem_splitNl s l (List.dropLast_subset _ hl)

theorem noNl_tailSeg (s : List Char) : nlC ∉ tailSeg s := by
  unfold tailSeg
  cases h : (splitNl s).getLast? with
  | none => simp
  | some l =>
    simp only [Option.getD_some]
    exact nl_not_mem_splitNl s l (List.mem_of_mem_getLast? h)

theorem completeLines_of_noNl {b : List Char} (hb : nlC ∉ b) :
    completeLines b = [] ∧ tailSeg b = b := by
  have h := joinLines_splitNl b
  exact @joinLines_inj (completeLines b) [] (tailSeg b) b (noNl_completeLines b)
    (by intro l hl; cases hl) (noNl_tailSeg b) hb (by rw [h, joinLines_nil])

theorem completeLines_append (x y : List Char) :
    completeLines (x ++ y) = completeLines x ++ completeLines (tailSeg x ++ y) ∧
    tailSeg (x ++ y) = tailSeg (tailSeg x ++ y) := by
  have key : joinLines (completeLines x ++ completeLines (tailSeg x ++ y))
      (tailSeg (tailSeg x ++ y)) = x ++ y := by
    rw [joinLines_append, joinLines_splitNl (tailSeg x ++ y),
      joinLines_append_right, joinLines_splitNl x]
  have h1 := joinLines_splitNl (x ++ y)
  have hmem : ∀ l ∈ completeLines x ++ completeLines (tailSeg x ++ y), nlC ∉ l := by
    intro l hl
    rcases List.mem_append.mp hl with h | h
    · exact noNl_completeLines x l h
    · exact noNl_completeLines (tailSeg x ++ y) l h
  exact joinLines_inj (completeLines (x ++ y)) (noNl_completeLines (x ++ y)) hmem
    (noNl_tailSeg (x ++ y)) (noNl_tailSeg (tailSeg x ++ y)) (by rw [h1, key])

theorem feed_eq (b c : List Char) :
    feed b c = (tailSeg (b ++ c), completeLines (b ++ c)) := rfl

theorem runFeed_join : ∀ (cs : List (List Char)) (b : List Char),
    joinLines (runFeed b cs).2 (runFeed b cs).1 = b ++ cs.flatten := by
  intro cs
  induction cs with
  | nil => intro b; simp [runFeed, joinLines_nil]
  | cons c cs ih =>
    intro b
    show joinLines (completeLines (b ++ c) ++ (runFeed (tailSeg (b ++ c)) cs).2)
      (runFeed (tailSeg (b ++ c)) cs).1 = b ++ (c :: cs).flatten
    rw [joinLines_append, ih, joinLines_append_right, joinLines_splitNl]
    simp [List.append_assoc]

theorem runFeed_lines_noNl : ∀ (cs : List (List Char)) (b : List Char),
    ∀ l ∈ (runFeed b cs).2, nlC ∉ l := by
  intro cs
  induction cs with
  | nil => intro b l hl; cases hl
  | cons c cs ih =>
    intro b l hl
    rcases List.mem_append.mp hl with h | h
    · exact noNl_completeLines (b ++ c) l h
    · exact ih (tailSeg (b ++ c)) l h

theorem runFeed_buf_noNl : ∀ (cs : List (List Char)) (b : List Char), nlC ∉ b →
    nlC ∉ (runFeed b cs).1 := by
  intro cs
  induction cs with
  | nil => intro b hb; exact hb
  | cons c cs ih => intro b _; exact ih (tailSeg (b ++ c)) (noNl_tailSeg (b ++ c))

/-- Full correctness of the shared line-splitting loop: starting from an
empty buffer, after any chunk sequence the lines handed out are exactly
the complete lines of the concatenated input, in order and exactly once,
and the retained buffer is exactly the text after the last newline (so
it never contains a newline). -/
theorem runFeed_correct (cs : List (List Char)) :
    (runFeed [] cs).2 = completeLines cs.flatten ∧
    (runFeed [] cs).1 = tailSeg cs.flatten := by
  have hj := runFeed_join cs []
  rw [List.nil_append] at hj
  have hcanon := joinLines_splitNl cs.flatten
  exact joinLines_inj (runFeed [] cs).2 (runFeed_lines_noNl cs [])
    (noNl_completeLines cs.flatten)
    (runFeed_buf_noNl cs [] (by simp)) (noNl_tailSeg cs.flatten)
    (by rw [hj, hcanon])

/-! ## The server-side upstream stream iterator

`createStreamIterator` (`llm-service.ts`): per chunk, run the buffering
discipline above; for each complete line, act only on lines starting
with `'data: '`; `slice(6).trim()`; stop cleanly at `[DONE]`; decode the
payload and yield it, skipping lines whose payload fails to decode.  The
decode function (`JSON.parse`) is a parameter. -/

/-- The protocol prefix `'data: '`. -/
def dataPfx : List Char := "data: ".toList

/-- The terminator token `'[DONE]'`. -/
def doneTok : List Char := "[DONE]".toList

/-- JavaScript `String.prototype.trim`. -/
def trimChars (l : List Char) : List Char :=
  ((l.dropWhile Char.isWhitespace).reverse.dropWhile Char.isWhitespace).reverse

/-- Process a list of complete lines the way the iterator's inner loop
does: returns the decoded records yielded, in order, and whether the
`[DONE]` terminator was reached (after which nothing further is
processed). -/
def procLinesStop (parse : List Char → Option Json) : List (List Char) → List Json × Bool
  | [] => ([], false)
  | l :: ls =>
    if List.isPrefixOf dataPfx l then
      let d := trimChars (l.drop 6)
      if d = doneTok then ([], true)
      else
        match parse d with
        | some j =>
          let r := procLinesStop parse ls
          (j :: r.1, r.2)
        | none => procLinesStop parse ls
    else procLinesStop parse ls

/-- The iterator's per-stream state: carry buffer, records yielded so
far, and whether `[DONE]` ended the iteration. -/
structure LlmState where
  buffer : List Char
  events : List Json
  stopped : Bool

/-- One turn of the iterator's `for await` loop body. -/
def llmStep (parse : List Char → Option Json) (st : LlmState) (c : List Char) : LlmState :=
  if st.stopped then st
  else
    { buffer := (feed st.buffer c).1,
      events := st.events ++ (procLinesStop parse (feed st.buffer c).2).1,
      stopped := (procLinesStop parse (feed st.buffer c).2).2 }

/-- Run `createStreamIterator` over a chunk sequence. -/
def llmRun (parse : List Char → Option Json) (cs : List (List Char)) : LlmState :=
  cs.foldl (llmStep parse) { buffer := [], events := [], stopped := false }

theorem procLinesStop_cons (parse : List Char → Option Json) (l : List Char)
    (ls : List (List Char)) :
    procLinesStop parse (l :: ls) =
      if List.isPrefixOf dataPfx l then
        if trimChars (l.drop 6) = doneTok then ([], true)
        else
          match parse (trimChars (l.drop 6)) with
          | some j => (j :: (procLinesStop parse ls).1, (procLinesStop parse ls).2)
          | none => procLinesStop parse ls
      else procLinesStop parse ls := rfl

theorem procLinesStop_append (parse : List Char → Option Json) :
    ∀ (ls ls' : List (List Char)),
    procLinesStop parse (ls ++ ls') =
      ((procLinesStop parse ls).1 ++
        (if (procLinesStop parse ls).2 then [] else (procLinesStop parse ls').1),
       ((procLinesStop parse ls).2 || (procLinesStop parse ls').2)) := by
  intro ls ls'
  induction ls with
  | nil => simp [procLinesStop]
  | cons l t ih =>
    rw [List.cons_append, procLinesStop_cons, procLinesStop_cons]
    by_cases hp : List.isPrefixOf dataPfx l
    · simp only [if_pos hp]
      by_cases hd : trimChars (l.drop 6) = doneTok
      · simp [hd]
      · simp only [if_neg hd]
        cases parse (trimChars (l.drop 6)) with
        | none => exact ih
        | some j => simp [ih]
    · simp only [if_neg hp]; exact ih

theorem llmFold_stopped (parse : List Char → Option Json) :
    ∀ (cs : List (List Char)) (st : LlmState), st.stopped = true →
    cs.foldl (llmStep parse) st = st := by
  intro cs
  induction cs with
  | nil => intro st _; rfl
  | cons c t ih =>
    intro st hst
    rw [List.foldl_cons]
    have : llmStep parse st c = st := by rw [llmStep, hst]; simp
    rw [this]
    exact ih st hst

theorem llmFold_events (parse : List Char → Option Json) :
    ∀ (cs : List (List Char)) (b : List Char) (evs : List Json), nlC ∉ b →
    (cs.foldl (llmStep parse) { buffer := b, events := evs, stopped := false }).events
      = evs ++ (procLinesStop parse (completeLines (b ++ cs.flatten))).1 := by
  intro cs
  induction cs with
  | nil =>
    intro b evs hb
    simp only [List.foldl_nil, List.flatten_nil, List.append_nil]
    rw [(completeLines_of_noNl hb).1]
    simp [procLinesStop]
  | cons c t ih =>
    intro b evs hb
    rw [List.foldl_cons]
    have hstep : llmStep parse { buffer := b, events := evs, stopped := false } c =
        { buffer := tailSeg (b ++ c),
          events := evs ++ (procLinesStop parse (completeLines (b ++ c))).1,
          stopped := (procLinesStop parse (completeLines (b ++ c))).2 } := by
      rw [llmStep]; simp [feed_eq]
    rw [hstep]
    have hflat : b ++ (c :: t).flatten = (b ++ c) ++ t.flatten := by
      simp [List.append_assoc]
    rw [hflat, (completeLines_append (b ++ c) t.flatten).1,
      procLinesStop_append]
    cases hs : (procLinesStop parse (completeLines (b ++ c))).2 with
    | true =>
      rw [llmFold_stopped parse t _ (by simp [hs])]
      simp [hs]
    | false =>
      rw [ih (tailSeg (b ++ c)) _ (noNl_tailSeg (b ++ c))]
      simp [hs, List.append_assoc]

/-- The iterator's yielded record sequence is a function of the
concatenated text alone. -/
theorem llmRun_events_canonical (parse : List Char → Option Json)
    (cs : List (List Char)) :
    (llmRun parse cs).events = (procLinesStop parse (completeLines cs.flatten)).1 := by
  have := llmFold_events parse cs [] [] (by simp)
  simpa [llmRun] using this

/-- Encode a list of lines as wire text: every line newline-terminated. -/
def wireText (ls : List (List Char)) : List Char := joinLines ls []

theorem completeLines_wireText {ls : List (List Char)}
    (h : ∀ l ∈ ls, nlC ∉ l) :
    completeLines (wireText ls) = ls ∧ tailSeg (wireText ls) = [] := by
  have hw := joinLines_splitNl (wireText ls)
  exact @joinLines_inj (completeLines (wireText ls)) ls (tailSeg (wireText ls)) []
    (noNl_completeLines (wireText ls)) h (noNl_tailSeg (wireText ls)) (by simp)
    (by rw [hw]; rfl)

/-- Skipping behaviour of the line loop: a `data: ` line that is not the
terminator and whose payload does not decode contributes nothing, and
the processing of every other line is unchanged. -/
theorem procLinesStop_skip_malformed (parse : List Char → Option Json)
    (pre post : List (List Char)) (bad : List Char)
    (hpfx : List.isPrefixOf dataPfx bad = true)
    (hdone : trimChars (bad.drop 6) ≠ doneTok)
    (hparse : parse (trimChars (bad.drop 6)) = none) :
    procLinesStop parse (pre ++ bad :: post) = procLinesStop parse (pre ++ post) := by
  rw [procLinesStop_append, procLinesStop_append]
  rw [procLinesStop_cons, if_pos hpfx, if_neg hdone, hparse]

/-! ## The SDK consumer of `UniversalChatWidget.ts`

`handleStreamingResponse` there decodes each read one-shot
(`decoder.decode(value)`), splits the chunk on newlines **without any
carry buffer**, and iterates over **all** split segments (including a
trailing partial segment).  `data === '[DONE]'` is `continue`d (no trim
is applied); a `content` event appends to the accumulated assistant
message and either creates the UI message (first fragment) or updates
it; `completion` breaks out of the line loop; an `error` event throws,
but the throw is caught by the same `catch (parseError)` that guards
`JSON.parse`, so it only logs a warning. -/

/-- The strict comparison `parsed.type === '<tag>'`: true exactly when
the `type` field is present and is that string. -/
def typeIs (j : Json) (s : List Char) : Bool :=
  match getField j "type".toList with
  | some (Json.str t) => t = s
  | _ => false

/-- UI effects observable from `UniversalChatWidget.handleStreamingResponse`:
the assistant message element is created with, or updated to, the given
accumulated text. -/
inductive WEvent where
  | created (text : List Char)
  | updated (text : List Char)
deriving DecidableEq

/-- State of `handleStreamingResponse`: the accumulated assistant
message (`none` until the first fragment creates it) and the UI effects
so far. -/
structure WState where
  msg : Option (List Char)
  events : List WEvent
deriving DecidableEq

/-- The inner `for (const line of lines)` loop of
`UniversalChatWidget.handleStreamingResponse`. -/
def widgetLines (parse : List Char → Option Json) : WState → List (List Char) → WState
  | st, [] => st
  | st, l :: ls =>
    if List.isPrefixOf dataPfx l then
      let d := l.drop 6
      if d = doneTok then widgetLines parse st ls
      else
        match parse d with
        | none => widgetLines parse st ls
        | some j =>
          if typeIs j "content".toList then
            match getField j "content".toList with
            | some (Json.str s) =>
              if s ≠ [] then
                match st.msg with
                | none =>
                  widgetLines parse
                    { msg := some s, events := st.events ++ [WEvent.created s] } ls
                | some m =>
                  widgetLines parse
                    { msg := some (m ++ s)
                      events := st.events ++ [WEvent.updated (m ++ s)] } ls
              else widgetLines parse st ls
            | _ => widgetLines parse st ls
          else if typeIs j "completion".toList then st
          else widgetLines parse st ls
    else widgetLines parse st ls

/-- One read cycle: split the chunk and run the line loop over every
segment.  There is no carry buffer in this implementation. -/
def widgetChunk (parse : List Char → Option Json) (st : WState) (c : List Char) : WState :=
  widgetLines parse st (splitNl c)

/-- Run `UniversalChatWidget.handleStreamingResponse` over a chunk
sequence. -/
def widgetRun (parse : List Char → Option Json) (cs : List (List Char)) : WState :=
  cs.foldl (widgetChunk parse) { msg := none, events := [] }

/-! ## The SDK consumer of `rollup.config.js`

This second `handleStreamingResponse` keeps the proper carry buffer and
streaming decode; observers are notified by `addMessage` (assistant
message created), `updateMessage` (content appended) and
`config.onMessageReceived` (message finalized on `completion`).  An
`error` event throws, but — exactly as in the other widget — the throw
lands in the `catch (parseError)` of the same `try` and is reduced to a
`console.warn`; no observer is notified and processing continues. -/

/-- Observer notifications of the rollup widget. -/
inductive RWEvent where
  | added
  | updated (text : List Char)
  | received (text : List Char)
deriving DecidableEq

/-- State of the rollup `handleStreamingResponse`. -/
structure RState where
  buffer : List Char
  msg : Option (List Char)
  notes : List RWEvent
  stopped : Bool

/-- Handle one decoded record (the three `if (chunk.type === ...)`
tests of the source; `type` is a single value so at most one fires). -/
def rollupEvent (st : RState) (j : Json) : RState :=
  let st1 :=
    if typeIs j "content".toList then
      match getField j "content".toList with
      | some (Json.str s) =>
        if s ≠ [] then
          match st.msg with
          | none =>
            { st with
              msg := some s
              notes := st.notes ++ [RWEvent.added, RWEvent.updated s] }
          | some m =>
            { st with
              msg := some (m ++ s)
              notes := st.notes ++ [RWEvent.updated (m ++ s)] }
        else st
      | _ => st
    else st
  if typeIs j "completion".toList then
    match st1.msg with
    | some m => { st1 with notes := st1.notes ++ [RWEvent.received m] }
    | none => st1
  else st1

/-- The line loop of the rollup `handleStreamingResponse`; `[DONE]`
`return`s, ending the whole read loop. -/
def rollupLines (parse : List Char → Option Json) : RState → List (List Char) → RState
  | st, [] => st
  | st, l :: ls =>
    if st.stopped then st
    else if List.isPrefixOf dataPfx l then
      let d := trimChars (l.drop 6)
      if d = doneTok then { st with stopped := true }
      else
        match parse d with
        | none => rollupLines parse st ls
        | some j => rollupLines parse (rollupEvent st j) ls
    else rollupLines parse st ls

/-- One read cycle of the rollup widget: buffered line splitting, then
the line loop. -/
def rollupStep (parse : List Char → Option Json) (st : RState) (c : List Char) : RState :=
  if st.stopped then st
  else
    rollupLines parse { st with buffer := (feed st.buffer c).1 } (feed st.buffer c).2

/-- Run the rollup `handleStreamingResponse` over a chunk sequence. -/
def rollupRun (parse : List Char → Option Json) (cs : List (List Char)) : RState :=
  cs.foldl (rollupStep parse) { buffer := [], msg := none, notes := [], stopped := false }

/-! ## The streaming route handler (`server/src/routes/chat.ts`)

The `/stream` handler validates the request body, then asks
`llmService.generateStreamingResponse` for the upstream stream and
iterates it.  Upstream records are modelled by the `StreamChunk`
interface declared in `llm-service.ts`.  The Contentstack lookup
(`new ContentstackService().queryContent(...)`) and the upstream
connection outcome are external collaborators and enter as parameters.
Each `res.write` is modelled as one `Frame`. -/

/-- The `usage` record of the upstream `StreamChunk` interface. -/
structure Usage where
  prompt_tokens : Int
  completion_tokens : Int
  total_tokens : Int
deriving DecidableEq

/-- The `function` part of a streamed tool-call fragment. -/
structure ToolFn where
  name : Option (List Char)
  arguments : Option (List Char)
deriving DecidableEq

/-- One element of `choice.delta.tool_calls`. -/
structure ToolCallFrag where
  id : Option (List Char)
  function : Option ToolFn
deriving DecidableEq

/-- `choice.delta`. -/
structure Delta where
  content : Option (List Char)
  tool_calls : Option (List ToolCallFrag)
deriving DecidableEq

/-- One element of `chunk.choices`. -/
structure Choice where
  delta : Delta
  finish_reason : Option (List Char)
deriving DecidableEq

/-- One upstream delta record (`StreamChunk` in `llm-service.ts`).
An absent `choices` field is modelled as the empty list, matching the
guard `chunk.choices && chunk.choices[0]`. -/
structure StreamChunk where
  choices : List Choice
  usage : Option Usage
deriving DecidableEq

/-- One `res.write` of the handler. -/
inductive Frame where
  | validationError
  | content (text : List Char) (finish_reason : Option (List Char))
  | toolResult (id : Option (List Char)) (payload : List Char)
  | toolError (id : Option (List Char)) (msg : List Char)
  | completion (finish_reason : List Char) (usage : Option Usage)
  | errorFrame (msg : List Char)
  | sentinel
deriving DecidableEq

/-- The arguments handed to `contentstackService.queryContent`:
`args.content_type` (possibly `undefined`), `args.query || ''` and
`args.limit || 5`. -/
structure LookupCall where
  content_type : Option Json
  query : Json
  limit : Json

/-- The only tool name the handler dispatches. -/
def qToolName : List Char := "query_contentstack_content".toList

/-- `'{}'`, the default of `toolCall.function.arguments || '{}'`. -/
def defaultArgsStr : List Char := [lbraceC, rbraceC]

/-- Model of the `SyntaxError` message thrown by `JSON.parse` on bad
input (the handler only forwards `toolError.message`; its exact text is
platform-defined). -/
def parseFailMsg : List Char := "Unexpected token in JSON".toList

/-- Model of the `TypeError` message thrown by property access on
`null`. -/
def nullAccessMsg : List Char := "Cannot read properties of null".toList

/-- Does the fragment name the dispatched capability
(`toolCall.function?.name === 'query_contentstack_content'`)? -/
def isMatching (f : ToolCallFrag) : Bool :=
  match f.function with
  | some fn => fn.name = some qToolName
  | none => false

/-- The argument text a matching fragment is dispatched with
(`toolCall.function.arguments || '{}'`). -/
def argStrOf (f : ToolCallFrag) : List Char :=
  match f.function with
  | some fn =>
    match fn.arguments with
    | some a => if a = [] then defaultArgsStr else a
    | none => defaultArgsStr
  | none => defaultArgsStr

/-- Extract `queryContent`'s arguments from the parsed argument
object. -/
def mkCall (j : Json) : LookupCall :=
  { content_type := getField j "content_type".toList
    query :=
      if oTruthy (getField j "query".toList) then
        (getField j "query".toList).getD Json.null
      else Json.str []
    limit :=
      if oTruthy (getField j "limit".toList) then
        (getField j "limit".toList).getD Json.null
      else Json.num 5 }

/-- The lookup call a matching fragment leads to, if its argument text
parses to a non-`null` value (otherwise the `try` block throws before
`queryContent` is reached). -/
def callOf (f : ToolCallFrag) : Option LookupCall :=
  match jsonParse (argStrOf f) with
  | none => none
  | some j => if jsonIsNull j then none else some (mkCall j)

/-- Dispatch one matching fragment: parse its argument text, call the
lookup, and write `tool_result` on success or `tool_error` on any
thrown error (parse failure, null access, lookup rejection). -/
def dispatchOne (lookup : LookupCall → Except (List Char) (List Char))
    (f : ToolCallFrag) : Frame × Option LookupCall :=
  match jsonParse (argStrOf f) with
  | none => (Frame.toolError f.id parseFailMsg, none)
  | some j =>
    if jsonIsNull j then (Frame.toolError f.id nullAccessMsg, none)
    else
      match lookup (mkCall j) with
      | Except.ok payload => (Frame.toolResult f.id payload, some (mkCall j))
      | Except.error m => (Frame.toolError f.id m, some (mkCall j))

/-- The `for (const toolCall of choice.delta.tool_calls)` loop:
fragments with any other (or no) function name are skipped. -/
def dispatchAll (lookup : LookupCall → Except (List Char) (List Char)) :
    List ToolCallFrag → List Frame × List LookupCall
  | [] => ([], [])
  | f :: fs =>
    let rest := dispatchAll lookup fs
    if isMatching f then
      let r := dispatchOne lookup f
      (r.1 :: rest.1,
        match r.2 with
        | some c => c :: rest.2
        | none => rest.2)
    else rest

/-- Does this chunk's first choice carry a truthy `finish_reason`
(which emits the completion frame and `break`s the loop)? -/
def finishes (c : StreamChunk) : Bool :=
  match c.choices.head? with
  | none => false
  | some ch =>
    match ch.finish_reason with
    | some r => r ≠ []
    | none => false

/-- The loop body for one upstream chunk: tool-call dispatch first, then
the content frame (only for a truthy fragment), then the completion
frame with `break`.  Returns the frames written, the lookup calls made,
and whether the loop `break`s here. -/
def processChunk (lookup : LookupCall → Except (List Char) (List Char))
    (c : StreamChunk) : List Frame × List LookupCall × Bool :=
  match c.choices.head? with
  | none => ([], [], false)
  | some choice =>
    let t :=
      match choice.delta.tool_calls with
      | none => ([], [])
      | some tcs => dispatchAll lookup tcs
    let cf :=
      match choice.delta.content with
      | some s => if s ≠ [] then [Frame.content s choice.finish_reason] else []
      | none => []
    match choice.finish_reason with
    | some r =>
      if r ≠ [] then (t.1 ++ cf ++ [Frame.completion r c.usage], t.2, true)
      else (t.1 ++ cf, t.2, false)
    | none => (t.1 ++ cf, t.2, false)

/-- The `for await (const chunk of stream)` loop, with early `break` on
the first truthy `finish_reason`. -/
def processChunks (lookup : LookupCall → Except (List Char) (List Char)) :
    List StreamChunk → List Frame × List LookupCall × Bool
  | [] => ([], [], false)
  | c :: cs =>
    let r := processChunk lookup c
    if r.2.2 then (r.1, r.2.1, true)
    else
      let r' := processChunks lookup cs
      (r.1 ++ r'.1, r.2.1 ++ r'.2.1, r'.2.2)

/-! ### Request validation (`validateChatRequest` in `chat.ts`) -/

/-- One entry of the request's `messages` array, at validator
granularity (absent or non-string values validate like the empty
string, following validator.js's `toString`). -/
structure RawMessage where
  role : Option (List Char)
  content : Option (List Char)

/-- The request body fields the validators inspect.  `messages = none`
models an absent or non-array value. -/
structure ChatRequest where
  messages : Option (List RawMessage)
  provider : Option (List Char)
  model : Option Json
  websiteContext : Option Json

/-- The recognized roles. -/
def allowedRoles : List (List Char) :=
  ["user".toList, "assistant".toList, "system".toList]

/-- The validation chain of `chat.ts` (lines 12-19): `messages` must be
an array; every entry needs non-empty `content` and a recognized
`role`; `provider`, `model` and `websiteContext` are optional with
`isIn(['groq'])`, `isString()` and `isObject()` respectively.  Returns
`errors.isEmpty()`. -/
def validateChatRequest (req : ChatRequest) : Bool :=
  (match req.messages with
   | none => false
   | some ms =>
     ms.all (fun m => (m.content.getD []) ≠ [] && allowedRoles.contains (m.role.getD []))) &&
  (match req.provider with
   | none => true
   | some p => p = "groq".toList) &&
  (match req.model with
   | none => true
   | some (Json.str _) => true
   | some _ => false) &&
  (match req.websiteContext with
   | none => true
   | some (Json.obj _) => true
   | some _ => false)

/-! ### The handler -/

/-- Everything observable about one handled request: the frames written
to the response, the `queryContent` calls made, and whether the handler
proceeded past validation to request the upstream stream. -/
structure RouteResult where
  frames : List Frame
  calls : List LookupCall
  upstreamAttempted : Bool

/-- The `/stream` handler.  `conn` is the outcome of
`llmService.generateStreamingResponse`: either a thrown error message
(connection refused, authentication failure, non-2xx status, provider
missing — `axios` throws on all of these and the service rethrows), or
the sequence of upstream records followed by an optional mid-iteration
error.  On invalid requests a validation frame is written and the
response ends — before any upstream request, and without a sentinel.
Otherwise the loop runs inside `try/catch/finally`: a thrown error
appends one `error` frame (unless the loop already `break`ed, in which
case the remaining stream is never pulled), and `finally` always writes
the sentinel last. -/
def streamRoute (lookup : LookupCall → Except (List Char) (List Char))
    (req : ChatRequest)
    (conn : Except (List Char) (List StreamChunk × Option (List Char))) :
    RouteResult :=
  if validateChatRequest req = false then
    { frames := [Frame.validationError], calls := [], upstreamAttempted := false }
  else
    match conn with
    | Except.error m =>
      { frames := [Frame.errorFrame m, Frame.sentinel], calls := []
        upstreamAttempted := true }
    | Except.ok (chunks, streamErr) =>
      let r := processChunks lookup chunks
      let tailF :=
        if r.2.2 then []
        else
          match streamErr with
          | some m => [Frame.errorFrame m]
          | none => []
      { frames := r.1 ++ tailF ++ [Frame.sentinel], calls := r.2.1
        upstreamAttempted := true }

/-! ### The byte-level frame template

Every `res.write` of the handler uses the template literal
`` `data: ${JSON.stringify(x)}\\n\\n` `` (and the sentinel the plain
string `'data: [DONE]\\n\\n'`).  In a JavaScript string literal `\\n`
denotes the two characters backslash and `n`, not a newline. -/

/-- The bytes one frame write puts on the wire, as a function of the
serialized JSON payload. -/
def frameText (payload : List Char) : List Char :=
  "data: ".toList ++ payload ++ "\\n\\n".toList

/-- The bytes of the sentinel write `res.write('data: [DONE]\\n\\n')`. -/
def sentinelText : List Char := "data: [DONE]\\n\\n".toList

/-! ### Frame classification and structural lemmas about the loop -/

/-- Is this frame the sentinel? -/
def Frame.isSentinel : Frame → Bool
  | Frame.sentinel => true
  | _ => false

/-- Is this frame a completion frame? -/
def Frame.isCompletion : Frame → Bool
  | Frame.completion _ _ => true
  | _ => false

/-- Is this frame a `tool_result` or `tool_error` frame? -/
def Frame.isToolFrame : Frame → Bool
  | Frame.toolResult _ _ => true
  | Frame.toolError _ _ => true
  | _ => false

/-- The texts of the content frames, in order. -/
def contentTexts (fs : List Frame) : List (List Char) :=
  fs.filterMap fun f =>
    match f with
    | Frame.content s _ => some s
    | _ => none

/-- The matching tool-call fragments the loop reaches: those of each
chunk's first choice, up to and including the first chunk that
`break`s. -/
def matchingFrags : List StreamChunk → List ToolCallFrag
  | [] => []
  | c :: cs =>
    (match c.choices.head? with
     | none => []
     | some ch => (ch.delta.tool_calls.getD []).filter (fun f => isMatching f)) ++
    (if finishes c then [] else matchingFrags cs)

/-- The truthy content fragments the loop reaches, in order. -/
def truthyContents : List StreamChunk → List (List Char)
  | [] => []
  | c :: cs =>
    (match c.choices.head? with
     | none => []
     | some ch =>
       match ch.delta.content with
       | some s => if s ≠ [] then [s] else []
       | none => []) ++
    (if finishes c then [] else truthyContents cs)

theorem dispatchOne_call (lookup : LookupCall → Except (List Char) (List Char))
    (f : ToolCallFrag) : (dispatchOne lookup f).2 = callOf f := by
  unfold dispatchOne callOf
  cases jsonParse (argStrOf f) with
  | none => rfl
  | some j =>
    by_cases hn : jsonIsNull j = true
    · simp [hn]
    · simp only [Bool.not_eq_true] at hn
      simp only [hn]
      cases lookup (mkCall j) <;> simp

theorem dispatchOne_toolFrame (lookup : LookupCall → Except (List Char) (List Char))
    (f : ToolCallFrag) : (dispatchOne lookup f).1.isToolFrame = true := by
  unfold dispatchOne
  cases jsonParse (argStrOf f) with
  | none => rfl
  | some j =>
    by_cases hn : jsonIsNull j = true
    · simp [hn, Frame.isToolFrame]
    · simp only [Bool.not_eq_true] at hn
      simp only [hn]
      cases lookup (mkCall j) <;> simp [Frame.isToolFrame]

theorem dispatchAll_toolFrames (lookup : LookupCall → Except (List Char) (List Char)) :
    ∀ (tcs : List ToolCallFrag), ∀ fr ∈ (dispatchAll lookup tcs).1,
    fr.isToolFrame = true := by
  intro tcs
  induction tcs with
  | nil => intro fr h; cases h
  | cons f fs ih =>
    intro fr h
    rw [dispatchAll] at h
    by_cases hm : isMatching f = true
    · simp only [hm, if_true] at h
      rcases List.mem_cons.mp h with h1 | h1
      · rw [h1]; exact dispatchOne_toolFrame lookup f
      · exact ih fr h1
    · simp only [Bool.not_eq_true] at hm
      simp only [hm, Bool.false_eq_true, if_false] at h
      exact ih fr h

theorem dispatchAll_calls (lookup : LookupCall → Except (List Char) (List Char)) :
    ∀ (tcs : List ToolCallFrag),
    (dispatchAll lookup tcs).2 = (tcs.filter (fun f => isMatching f)).filterMap callOf := by
  intro tcs
  induction tcs with
  | nil => rfl
  | cons f fs ih =>
    rw [dispatchAll]
    by_cases hm : isMatching f = true
    · simp only [hm, if_true, List.filter_cons_of_pos hm, List.filterMap_cons]
      rw [← dispatchOne_call lookup f]
      cases (dispatchOne lookup f).2 <;> simp [ih]
    · simp only [Bool.not_eq_true] at hm
      have hm' : ¬ ((fun g => isMatching g) f = true) := by simp [hm]
      simp only [hm, Bool.false_eq_true, if_false, List.filter_cons_of_neg hm']
      exact ih

theorem dispatchAll_mem (lookup : LookupCall → Except (List Char) (List Char)) :
    ∀ (tcs : List ToolCallFrag) (f : ToolCallFrag),
    f ∈ tcs.filter (fun g => isMatching g) →
    (dispatchOne lookup f).1 ∈ (dispatchAll lookup tcs).1 := by
  intro tcs
  induction tcs with
  | nil => intro f h; cases h
  | cons g gs ih =>
    intro f h
    rw [dispatchAll]
    by_cases hm : isMatching g = true
    · rw [List.filter_cons_of_pos hm] at h
      rcases List.mem_cons.mp h with h1 | h1
      · subst h1; simp [hm]
      · simp only [hm, if_true]
        exact List.mem_cons.mpr (Or.inr (ih f h1))
    · simp only [Bool.not_eq_true] at hm
      have hm' : ¬ ((fun x => isMatching x) g = true) := by simp [hm]
      rw [List.filter_cons_of_neg hm'] at h
      simp only [hm, Bool.false_eq_true, if_false]
      exact ih f h

theorem toolFrame_not_completion {fr : Frame} (h : fr.isToolFrame = true) :
    fr.isCompletion = false := by
  cases fr <;> simp_all [Frame.isToolFrame, Frame.isCompletion]

theorem toolFrame_not_sentinel {fr : Frame} (h : fr.isToolFrame = true) :
    fr.isSentinel = false := by
  cases fr <;> simp_all [Frame.isToolFrame, Frame.isSentinel]

theorem contentTexts_toolFrames (fs : List Frame)
    (h : ∀ fr ∈ fs, fr.isToolFrame = true) : contentTexts fs = [] := by
  rw [contentTexts, List.filterMap_eq_nil_iff]
  intro fr hfr
  have := h fr hfr
  cases fr <;> simp_all [Frame.isToolFrame]

/-- The tool part of one chunk's processing. -/
def chunkTool (lookup : LookupCall → Except (List Char) (List Char)) (ch : Choice) :
    List Frame × List LookupCall :=
  match ch.delta.tool_calls with
  | none => ([], [])
  | some tcs => dispatchAll lookup tcs

/-- The content part of one chunk's processing. -/
def chunkContent (ch : Choice) : List Frame :=
  match ch.delta.content with
  | some s => if s ≠ [] then [Frame.content s ch.finish_reason] else []
  | none => []

theorem processChunk_eq (lookup : LookupCall → Except (List Char) (List Char))
    (c : StreamChunk) :
    processChunk lookup c =
      match c.choices.head? with
      | none => ([], [], false)
      | some ch =>
        ((chunkTool lookup ch).1 ++ chunkContent ch ++
          (if finishes c then [Frame.completion (ch.finish_reason.getD []) c.usage]
           else []),
         (chunkTool lookup ch).2, finishes c) := by
  cases hh : c.choices.head? with
  | none => simp [processChunk, hh]
  | some ch =>
    simp only [processChunk, finishes, chunkTool, chunkContent, hh]
    cases hf : ch.finish_reason with
    | none => simp
    | some r =>
      by_cases hr : r = []
      · simp [hr]
      · simp [hr]

theorem processChunk_fin (lookup : LookupCall → Except (List Char) (List Char))
    (c : StreamChunk) : (processChunk lookup c).2.2 = finishes c := by
  rw [processChunk_eq]
  cases hh : c.choices.head? with
  | none => simp [finishes, hh]
  | some ch => simp

theorem chunkTool_toolFrames (lookup : LookupCall → Except (List Char) (List Char))
    (ch : Choice) : ∀ fr ∈ (chunkTool lookup ch).1, fr.isToolFrame = true := by
  unfold chunkTool
  cases ch.delta.tool_calls with
  | none => intro fr h; cases h
  | some tcs => exact dispatchAll_toolFrames lookup tcs

theorem chunkContent_shape (ch : Choice) :
    chunkContent ch = [] ∨
    ∃ s, s ≠ [] ∧ ch.delta.content = some s ∧
      chunkContent ch = [Frame.content s ch.finish_reason] := by
  unfold chunkContent
  cases hc : ch.delta.content with
  | none => exact Or.inl rfl
  | some s =>
    by_cases hs : s = []
    · exact Or.inl (by simp [hs])
    · exact Or.inr ⟨s, hs, rfl, by simp [hs]⟩

theorem processChunk_noSentinel (lookup : LookupCall → Except (List Char) (List Char))
    (c : StreamChunk) : ∀ fr ∈ (processChunk lookup c).1, fr.isSentinel = false := by
  rw [processChunk_eq]
  cases hh : c.choices.head? with
  | none => intro fr h; cases h
  | some ch =>
    intro fr h
    simp only [List.mem_append] at h
    rcases h with (h | h) | h
    · exact toolFrame_not_sentinel (chunkTool_toolFrames lookup ch fr h)
    · rcases chunkContent_shape ch with hsh | ⟨s, _, _, hsh⟩
      · rw [hsh] at h; cases h
      · rw [hsh] at h
        rcases List.mem_singleton.mp h with rfl
        rfl
    · by_cases hf : finishes c
      · simp only [hf, if_true, List.mem_singleton] at h
        subst h; rfl
      · simp [hf] at h

theorem processChunk_not_completion_of_not_fin
    (lookup : LookupCall → Except (List Char) (List Char)) (c : StreamChunk)
    (hf : finishes c = false) :
    ∀ fr ∈ (processChunk lookup c).1, fr.isCompletion = false := by
  rw [processChunk_eq]
  cases hh : c.choices.head? with
  | none => intro fr h; cases h
  | some ch =>
    intro fr h
    simp only [hf, Bool.false_eq_true, if_false, List.append_nil, List.mem_append] at h
    rcases h with h | h
    · exact toolFrame_not_completion (chunkTool_toolFrames lookup ch fr h)
    · rcases chunkContent_shape ch with hsh | ⟨s, _, _, hsh⟩
      · rw [hsh] at h; cases h
      · rw [hsh] at h
        rcases List.mem_singleton.mp h with rfl
        rfl

theorem processChunk_dropLast_not_completion
    (lookup : LookupCall → Except (List Char) (List Char)) (c : StreamChunk) :
    ∀ fr ∈ (processChunk lookup c).1.dropLast, fr.isCompletion = false := by
  by_cases hf : finishes c
  · rw [processChunk_eq]
    cases hh : c.choices.head? with
    | none => intro fr h; cases h
    | some ch =>
      intro fr h
      simp only [hf, if_true, ← List.append_assoc] at h
      rw [List.dropLast_concat] at h
      rcases List.mem_append.mp h with h | h
      · exact toolFrame_not_completion (chunkTool_toolFrames lookup ch fr h)
      · rcases chunkContent_shape ch with hsh | ⟨s, _, _, hsh⟩
        · rw [hsh] at h; cases h
        · rw [hsh] at h
          rcases List.mem_singleton.mp h with rfl
          rfl
  · intro fr h
    exact processChunk_not_completion_of_not_fin lookup c (by simpa using hf) fr
      (List.dropLast_subset _ h)

theorem chunkTool_calls (lookup : LookupCall → Except (List Char) (List Char))
    (ch : Choice) :
    (chunkTool lookup ch).2 =
      ((ch.delta.tool_calls.getD []).filter (fun f => isMatching f)).filterMap callOf := by
  unfold chunkTool
  cases ch.delta.tool_calls with
  | none => simp
  | some tcs => simpa using dispatchAll_calls lookup tcs

theorem processChunks_cons (lookup : LookupCall → Except (List Char) (List Char))
    (c : StreamChunk) (cs : List StreamChunk) :
    processChunks lookup (c :: cs) =
      if (processChunk lookup c).2.2 then
        ((processChunk lookup c).1, (processChunk lookup c).2.1, true)
      else
        ((processChunk lookup c).1 ++ (processChunks lookup cs).1,
         (processChunk lookup c).2.1 ++ (processChunks lookup cs).2.1,
         (processChunks lookup cs).2.2) := rfl

theorem processChunks_noSentinel (lookup : LookupCall → Except (List Char) (List Char)) :
    ∀ (cs : List StreamChunk), ∀ fr ∈ (processChunks lookup cs).1,
    fr.isSentinel = false := by
  intro cs
  induction cs with
  | nil => intro fr h; cases h
  | cons c t ih =>
    intro fr h
    rw [processChunks_cons] at h
    by_cases hf : (processChunk lookup c).2.2 = true
    · simp only [hf, if_true] at h
      exact processChunk_noSentinel lookup c fr h
    · simp only [hf, if_false] at h
      rcases List.mem_append.mp h with h1 | h1
      · exact processChunk_noSentinel lookup c fr h1
      · exact ih fr h1

theorem processChunks_dropLast_not_completion
    (lookup : LookupCall → Except (List Char) (List Char)) :
    ∀ (cs : List StreamChunk), ∀ fr ∈ (processChunks lookup cs).1.dropLast,
    fr.isCompletion = false := by
  intro cs
  induction cs with
  | nil => intro fr h; cases h
  | cons c t ih =>
    intro fr h
    rw [processChunks_cons] at h
    by_cases hf : (processChunk lookup c).2.2 = true
    · simp only [hf, if_true] at h
      exact processChunk_dropLast_not_completion lookup c fr h
    · have hf' : (processChunk lookup c).2.2 = false := by simpa using hf
      simp only [hf', Bool.false_eq_true, if_false] at h
      have hnf : finishes c = false := by
        rw [← processChunk_fin lookup c]
        exact hf'
      by_cases ht : (processChunks lookup t).1 = []
      · rw [ht, List.append_nil] at h
        exact processChunk_not_completion_of_not_fin lookup c hnf fr
          (List.dropLast_subset _ h)
      · rw [List.dropLast_append_of_ne_nil _ ht] at h
        rcases List.mem_append.mp h with h1 | h1
        · exact processChunk_not_completion_of_not_fin lookup c hnf fr h1
        · exact ih fr h1

theorem processChunk_calls (lookup : LookupCall → Except (List Char) (List Char))
    (c : StreamChunk) :
    (processChunk lookup c).2.1 =
      ((match c.choices.head? with
        | none => []
        | some ch => (ch.delta.tool_calls.getD []).filter (fun f => isMatching f))).filterMap
        callOf := by
  rw [processChunk_eq]
  cases hh : c.choices.head? with
  | none => simp
  | some ch => simpa using chunkTool_calls lookup ch

theorem processChunks_calls (lookup : LookupCall → Except (List Char) (List Char)) :
    ∀ (cs : List StreamChunk),
    (processChunks lookup cs).2.1 = (matchingFrags cs).filterMap callOf := by
  intro cs
  induction cs with
  | nil => rfl
  | cons c t ih =>
    rw [processChunks_cons, matchingFrags]
    by_cases hf : (processChunk lookup c).2.2 = true
    · have hfin : finishes c = true := by rw [← processChunk_fin lookup c]; exact hf
      simp only [hf, if_true, hfin, List.append_nil]
      exact processChunk_calls lookup c
    · have hfin : finishes c = false := by
        rw [← processChunk_fin lookup c]; simpa using hf
      simp only [hf, if_false, hfin, Bool.false_eq_true, List.filterMap_append]
      rw [processChunk_calls lookup c, ih]

theorem chunkContent_texts (ch : Choice) :
    contentTexts (chunkContent ch) =
      (match ch.delta.content with
       | some s => if s ≠ [] then [s] else []
       | none => []) := by
  unfold chunkContent
  cases ch.delta.content with
  | none => rfl
  | some s =>
    by_cases hs : s = []
    · simp [hs, contentTexts]
    · simp [hs, contentTexts]

theorem processChunk_contents (lookup : LookupCall → Except (List Char) (List Char))
    (c : StreamChunk) :
    contentTexts (processChunk lookup c).1 =
      (match c.choices.head? with
       | none => []
       | some ch =>
         match ch.delta.content with
         | some s => if s ≠ [] then [s] else []
         | none => []) := by
  rw [processChunk_eq]
  cases hh : c.choices.head? with
  | none => simp [contentTexts]
  | some ch =>
    show contentTexts ((chunkTool lookup ch).1 ++ chunkContent ch ++ _) = _
    unfold contentTexts
    rw [List.filterMap_append, List.filterMap_append]
    have h1 : ∀ fr ∈ (chunkTool lookup ch).1,
        (fun f => match f with
          | Frame.content s _ => some s
          | _ => none) fr = none := by
      intro fr hfr
      have := chunkTool_toolFrames lookup ch fr hfr
      cases fr <;> simp_all [Frame.isToolFrame]
    rw [List.filterMap_eq_nil_iff.mpr h1]
    have h3 : ((if finishes c
          then [Frame.completion (ch.finish_reason.getD []) c.usage]
          else []) : List Frame).filterMap
        (fun f => match f with
          | Frame.content s _ => some s
          | _ => none) = [] := by
      by_cases hf : finishes c <;> simp [hf]
    rw [h3, List.append_nil, List.nil_append]
    exact chunkContent_texts ch

theorem processChunks_contents (lookup : LookupCall → Except (List Char) (List Char)) :
    ∀ (cs : List StreamChunk),
    contentTexts (processChunks lookup cs).1 = truthyContents cs := by
  intro cs
  induction cs with
  | nil => rfl
  | cons c t ih =>
    rw [processChunks_cons, truthyContents]
    by_cases hf : (processChunk lookup c).2.2 = true
    · have hfin : finishes c = true := by rw [← processChunk_fin lookup c]; exact hf
      simp only [hf, if_true, hfin, List.append_nil]
      exact processChunk_contents lookup c
    · have hfin : finishes c = false := by
        rw [← processChunk_fin lookup c]; simpa using hf
      simp only [hf, if_false, hfin, Bool.false_eq_true]
      unfold contentTexts
      rw [List.filterMap_append]
      have := processChunk_contents lookup c
      unfold contentTexts at this
      rw [this]
      unfold contentTexts at ih
      rw [ih]

theorem processChunks_mem_tool (lookup : LookupCall → Except (List Char) (List Char)) :
    ∀ (cs : List StreamChunk) (f : ToolCallFrag), f ∈ matchingFrags cs →
    (dispatchOne lookup f).1 ∈ (processChunks lookup cs).1 := by
  intro cs
  induction cs with
  | nil => intro f h; cases h
  | cons c t ih =>
    intro f h
    rw [matchingFrags] at h
    rw [processChunks_cons]
    have hhead : f ∈ (match c.choices.head? with
        | none => ([] : List ToolCallFrag)
        | some ch => (ch.delta.tool_calls.getD []).filter (fun g => isMatching g)) →
        (dispatchOne lookup f).1 ∈ (processChunk lookup c).1 := by
      intro hm
      rw [processChunk_eq]
      cases hh : c.choices.head? with
      | none => rw [hh] at hm; cases hm
      | some ch =>
        rw [hh] at hm
        have hm' : f ∈ (ch.delta.tool_calls.getD []).filter (fun g => isMatching g) := hm
        have : (dispatchOne lookup f).1 ∈ (chunkTool lookup ch).1 := by
          unfold chunkTool
          cases htc : ch.delta.tool_calls with
          | none => rw [htc] at hm'; simp at hm'
          | some tcs =>
            rw [htc] at hm'
            show (dispatchOne lookup f).1 ∈ (dispatchAll lookup tcs).1
            exact dispatchAll_mem lookup tcs f (by simpa using hm')
        simp only [List.append_assoc, List.mem_append]
        exact Or.inl this
    rcases List.mem_append.mp h with h1 | h1
    · have hin := hhead h1
      by_cases hf : (processChunk lookup c).2.2 = true
      · simp only [hf, if_true]; exact hin
      · simp only [hf, if_false]
        exact List.mem_append.mpr (Or.inl hin)
    · by_cases hfin : finishes c = true
      · rw [hfin] at h1; simp at h1
      · have hfin' : finishes c = false := by simpa using hfin
        rw [hfin'] at h1
        simp only [Bool.false_eq_true, if_false] at h1
        have hf : (processChunk lookup c).2.2 = false := by
          rw [processChunk_fin lookup c]; exact hfin'
        simp only [hf, Bool.false_eq_true, if_false]
        exact List.mem_append.mpr (Or.inr (ih f h1))

/-! ## Concrete inputs used by the claim theorems -/

/-- A stub content lookup that always succeeds with an empty result
list. -/
def lookupStub : LookupCall → Except (List Char) (List Char) :=
  fun _ => Except.ok "[]".toList

/-- A request that passes validation. -/
def validReq : ChatRequest :=
  { messages := some [{ role := some "user".toList, content := some "hello".toList }]
    provider := none, model := none, websiteContext := none }

/-- A request with an unrecognized role: validation fails. -/
def badRoleReq : ChatRequest :=
  { messages := some [{ role := some "robot".toList, content := some "hi".toList }]
    provider := none, model := none, websiteContext := none }

/-- A request whose message list is empty. -/
def emptyMsgsReq : ChatRequest :=
  { messages := some [], provider := none, model := none, websiteContext := none }

/-- A complete content line of the wire protocol. -/
def contentLineHi : List Char :=
  "data: \x7b\"type\":\"content\",\"content\":\"Hi\"\x7d".toList

/-- The same line, newline-terminated, delivered as one chunk. -/
def wSingleChunk : List Char := contentLineHi ++ [nlC]

/-- First half of the same bytes, split in the middle of the JSON
payload. -/
def wChunkA : List Char := "data: \x7b\"type\":\"con".toList

/-- Second half of the same bytes. -/
def wChunkB : List Char := "tent\",\"content\":\"Hi\"\x7d".toList ++ [nlC]

/-- An error line of the wire protocol. -/
def errorLineBoom : List Char :=
  "data: \x7b\"type\":\"error\",\"error\":\"boom\"\x7d".toList

/-- A completion line of the wire protocol. -/
def completionLineStop : List Char :=
  "data: \x7b\"type\":\"completion\",\"finish_reason\":\"stop\",\"usage\":null\x7d".toList

/-- A stream containing a decodable error event between a content
fragment and a completion. -/
def c6Stream : List Char := wireText [contentLineHi, errorLineBoom, completionLineStop]

/-- A `data: ` line whose payload is not decodable and is not the
terminator. -/
def badLine : List Char := "data: \x7boops".toList

/-- A tool-call fragment carrying the function name and the first half
of the argument text (not yet valid JSON). -/
def fSplit1 : ToolCallFrag :=
  { id := some "call_a".toList
    function := some
      { name := some qToolName
        arguments := some "\x7b\"content_type\":\"product\",".toList } }

/-- The continuation fragment for the same call id: more argument text,
no function name (as upstream providers stream continuations). -/
def fSplit2 : ToolCallFrag :=
  { id := some "call_a".toList
    function := some
      { name := none, arguments := some "\"query\":\"laptop\"\x7d".toList } }

/-- A chunk carrying the given tool-call fragments. -/
def toolChunk (fs : List ToolCallFrag) : StreamChunk :=
  { choices := [{ delta := { content := none, tool_calls := some fs }
                  finish_reason := none }], usage := none }

/-- A chunk carrying only a truthy finish reason. -/
def finChunk : StreamChunk :=
  { choices := [{ delta := { content := none, tool_calls := none }
                  finish_reason := some "stop".toList }], usage := none }

/-- The upstream delta sequence of the split tool call: two argument
fragments, then the turn's finish. -/
def c3Chunks : List StreamChunk := [toolChunk [fSplit1], toolChunk [fSplit2], finChunk]

/-- A tool-call fragment whose arguments arrive whole. -/
def fWhole : ToolCallFrag :=
  { id := some "call_b".toList
    function := some
      { name := some qToolName
        arguments :=
          some "\x7b\"content_type\":\"product\",\"query\":\"laptop\",\"limit\":5\x7d".toList } }

/-- The value `JSON.parse` yields for `fWhole`'s arguments. -/
def jW : Json :=
  Json.obj [("content_type".toList, Json.str "product".toList),
    ("query".toList, Json.str "laptop".toList),
    ("limit".toList, Json.num 5)]

/-- A single whole tool call followed by the turn's finish. -/
def c3wChunks : List StreamChunk := [toolChunk [fWhole], finChunk]

/-- An upstream delta whose content fragment is the empty string. -/
def emptyContentChunk : StreamChunk :=
  { choices := [{ delta := { content := some [], tool_calls := none }
                  finish_reason := none }], usage := none }

/-! ## The claims -/

/-- Claim C1.  The claim states that every frame written by the relay is
`data: <json-payload>` followed by two newline characters, the sentinel
being exactly `data: [DONE]` plus two newlines.  The code is wrong: each
`res.write` template in `chat.ts` ends in the escaped sequence `\\n\\n`,
which in a JavaScript string is the four characters backslash, `n`,
backslash, `n` — not two newlines.  This theorem evaluates the modelled
wire bytes: the sentinel write equals the frame template applied to
`[DONE]`, its last character is the letter `n` (not a newline), it
differs from the byte sequence the claim specifies, and no frame whose
payload is newline-free contains a newline at all — so the repository's
own consumers, which split on real newlines, can never recognize these
frames. -/
theorem C1_frames_not_newline_terminated :
    sentinelText = frameText "[DONE]".toList ∧
    sentinelText.getLast? = some 'n' ∧
    sentinelText ≠ "data: [DONE]".toList ++ [nlC, nlC] ∧
    (∀ payload : List Char, (frameText payload).getLast? = some 'n') ∧
    (∀ payload : List Char, nlC ∉ payload → nlC ∉ frameText payload) := by
  refine ⟨rfl, by decide, by decide, ?_, ?_⟩
  · intro payload
    unfold frameText
    have ht : "\\n\\n".toList ≠ [] := by decide
    rw [List.getLast?_append_of_ne_nil ("data: ".toList ++ payload) ht]
    decide
  · intro payload hp
    unfold frameText
    intro hmem
    rcases List.mem_append.mp hmem with h | h
    · rcases List.mem_append.mp h with h1 | h1
      · revert h1; decide
      · exact hp h1
    · revert h; decide

/-- Witness for C1 at the concrete payload `"x"`. -/
theorem C1_witness :
    nlC ∉ "x".toList ∧ (frameText "x".toList).getLast? = some 'n' ∧
    nlC ∉ frameText "x".toList :=
  ⟨by decide, C1_frames_not_newline_terminated.2.2.2.1 "x".toList,
    C1_frames_not_newline_terminated.2.2.2.2 "x".toList (by decide)⟩

/-- Counterexample to claim C2 as stated.  The consumer in
`UniversalChatWidget.ts` splits every read chunk independently, with no
carry buffer: when the same newline-terminated wire line arrives split
across two reads, it emits no event at all, while the single-chunk
delivery of the identical bytes creates the assistant message.  So the
event sequence is not invariant under chunk splitting for this
parser. -/
theorem C2_counterexample :
    wChunkA ++ wChunkB = wSingleChunk ∧
    (widgetRun jsonParse [wChunkA, wChunkB]).events ≠
      (widgetRun jsonParse [wSingleChunk]).events := by
  refine ⟨by decide, ?_⟩
  have h1 : (widgetRun jsonParse [wChunkA, wChunkB]).events = [] := rfl
  have h2 : (widgetRun jsonParse [wSingleChunk]).events =
      [WEvent.created "Hi".toList] := rfl
  rw [h1, h2]
  simp

/-- Claim C2, amended: the server-side stream iterator
(`createStreamIterator`), which does keep the carry buffer, emits the
same ordered record sequence for every character-level chunking of the
payload as for single-chunk delivery, for any payload decoder.  (Splits
inside a multi-byte character are outside this statement: both
consumers decode each chunk separately, so byte-level splits inside a
character are not handled either; and the `UniversalChatWidget`
consumer fails even at character level, per the counterexample.) -/
theorem C2_server_chunking_invariant (parse : List Char → Option Json)
    (cs : List (List Char)) :
    (llmRun parse cs).events = (llmRun parse [cs.flatten]).events := by
  rw [llmRun_events_canonical, llmRun_events_canonical]
  simp

/-- Witness for C2 at a concrete split of a concrete payload. -/
theorem C2_witness :
    (llmRun jsonParse [wChunkA, wChunkB]).events =
      (llmRun jsonParse [[wChunkA, wChunkB].flatten]).events :=
  C2_server_chunking_invariant jsonParse [wChunkA, wChunkB]

/-- Counterexample to claim C3 as stated.  The handler does not
accumulate tool-call fragments per call id: each fragment is handled
immediately, and continuation fragments (which carry no function name)
are skipped entirely.  For a call whose argument text arrives in two
fragments that concatenate to valid JSON, the handler parses only the
first (invalid) half, emits a `tool_error`, and never invokes the
lookup at all — not once with the concatenated arguments. -/
theorem C3_counterexample :
    (jsonParse ("\x7b\"content_type\":\"product\",".toList ++
      "\"query\":\"laptop\"\x7d".toList)).isSome = true ∧
    (streamRoute lookupStub validReq (Except.ok (c3Chunks, none))).calls = [] ∧
    Frame.toolError (some "call_a".toList) parseFailMsg ∈
      (streamRoute lookupStub validReq (Except.ok (c3Chunks, none))).frames := by
  refine ⟨rfl, rfl, ?_⟩
  have h : (streamRoute lookupStub validReq (Except.ok (c3Chunks, none))).frames =
      [Frame.toolError (some "call_a".toList) parseFailMsg,
       Frame.completion "stop".toList none, Frame.sentinel] := rfl
  rw [h]
  exact List.mem_cons_self _ _

/-- Claim C3, amended: the handler dispatches immediately, per fragment,
with that fragment's own argument text.  When a call's arguments arrive
whole in its single name-carrying fragment — the only reachable matching
fragment up to the turn's finish — and they parse to a non-null value,
then the lookup is invoked exactly once, with exactly those arguments,
and the resulting `tool_result`/`tool_error` frame is emitted before the
turn's completion frame (no completion frame precedes any other
frame). -/
theorem C3_single_fragment_dispatch
    (lookup : LookupCall → Except (List Char) (List Char))
    (chunks : List StreamChunk) (f : ToolCallFrag) (j : Json)
    (hm : matchingFrags chunks = [f])
    (hp : jsonParse (argStrOf f) = some j)
    (hn : jsonIsNull j = false) :
    (processChunks lookup chunks).2.1 = [mkCall j] ∧
    (match lookup (mkCall j) with
     | Except.ok p => Frame.toolResult f.id p
     | Except.error m => Frame.toolError f.id m) ∈ (processChunks lookup chunks).1 ∧
    (∀ fr ∈ (processChunks lookup chunks).1.dropLast, fr.isCompletion = false) := by
  have hc : callOf f = some (mkCall j) := by
    unfold callOf
    rw [hp]
    simp [hn]
  refine ⟨?_, ?_, processChunks_dropLast_not_completion lookup chunks⟩
  · rw [processChunks_calls, hm]
    simp [hc]
  · have hmem := processChunks_mem_tool lookup chunks f
      (by rw [hm]; exact List.mem_singleton_self f)
    have heq : (match lookup (mkCall j) with
        | Except.ok p => Frame.toolResult f.id p
        | Except.error m => Frame.toolError f.id m) = (dispatchOne lookup f).1 := by
      unfold dispatchOne
      rw [hp]
      simp only [hn, Bool.false_eq_true, if_false]
      cases lookup (mkCall j) <;> rfl
    rw [heq]
    exact hmem

/-- Witness for C3 at a concrete whole-fragment tool call. -/
theorem C3_witness :
    matchingFrags c3wChunks = [fWhole] ∧
    jsonParse (argStrOf fWhole) = some jW ∧
    jsonIsNull jW = false ∧
    ((processChunks lookupStub c3wChunks).2.1 = [mkCall jW] ∧
     (match lookupStub (mkCall jW) with
      | Except.ok p => Frame.toolResult fWhole.id p
      | Except.error m => Frame.toolError fWhole.id m) ∈
        (processChunks lookupStub c3wChunks).1 ∧
     (∀ fr ∈ (processChunks lookupStub c3wChunks).1.dropLast,
       fr.isCompletion = false)) :=
  ⟨rfl, rfl, rfl, C3_single_fragment_dispatch lookupStub c3wChunks fWhole jW rfl rfl rfl⟩

/-- Counterexample to claim C4 as stated.  On validation rejection the
handler writes the validation frame and ends the response before the
`try/finally` is ever entered: the channel is closed with zero sentinel
frames, not exactly one. -/
theorem C4_counterexample :
    validateChatRequest badRoleReq = false ∧
    (streamRoute lookupStub badRoleReq (Except.ok ([], none))).frames =
      [Frame.validationError] ∧
    (streamRoute lookupStub badRoleReq (Except.ok ([], none))).frames.countP
      (fun f => f.isSentinel) = 0 :=
  ⟨rfl, rfl, rfl⟩

/-- Claim C4, amended: for every request that passes validation —
whatever the stream outcome (normal completion, upstream connection
failure, mid-stream error, or tool failure) — exactly one sentinel frame
is written, and it is the last frame before the channel is closed.
Requests rejected by validation are closed without a sentinel (see the
counterexample). -/
theorem C4_sentinel_exactly_once
    (lookup : LookupCall → Except (List Char) (List Char)) (req : ChatRequest)
    (conn : Except (List Char) (List StreamChunk × Option (List Char)))
    (h : validateChatRequest req = true) :
    (streamRoute lookup req conn).frames.countP (fun f => f.isSentinel) = 1 ∧
    (streamRoute lookup req conn).frames.getLast? = some Frame.sentinel := by
  unfold streamRoute
  simp only [h, Bool.true_eq_false, if_false]
  match conn with
  | Except.error m =>
    refine ⟨?_, rfl⟩
    simp [List.countP_cons, Frame.isSentinel]
  | Except.ok (chunks, serr) =>
    have hzero : (processChunks lookup chunks).1.countP (fun f => f.isSentinel) = 0 :=
      List.countP_eq_zero.mpr (fun fr hfr => by
        simp [processChunks_noSentinel lookup chunks fr hfr])
    have htail : ∀ (tf : List Frame), tf = [] ∨ (∃ m, tf = [Frame.errorFrame m]) →
        tf.countP (fun f => f.isSentinel) = 0 := by
      intro tf htf
      rcases htf with rfl | ⟨m, rfl⟩
      · rfl
      · simp [List.countP_cons, Frame.isSentinel]
    constructor
    · rw [List.countP_append, List.countP_append, hzero]
      have h1 : ((if (processChunks lookup chunks).2.2 then []
          else match serr with
            | some m => [Frame.errorFrame m]
            | none => []) : List Frame).countP (fun f => f.isSentinel) = 0 := by
        apply htail
        by_cases hf : (processChunks lookup chunks).2.2 = true
        · simp [hf]
        · cases serr with
          | none => simp [hf]
          | some m =>
            right
            exact ⟨m, by simp [hf]⟩
      rw [h1]
      rfl
    · exact List.getLast?_concat _

/-- Witness for C4 at a concrete valid request and empty stream. -/
theorem C4_witness :
    validateChatRequest validReq = true ∧
    ((streamRoute lookupStub validReq (Except.ok ([], none))).frames.countP
        (fun f => f.isSentinel) = 1 ∧
     (streamRoute lookupStub validReq (Except.ok ([], none))).frames.getLast? =
        some Frame.sentinel) :=
  ⟨rfl, C4_sentinel_exactly_once lookupStub validReq (Except.ok ([], none)) rfl⟩

/-- Counterexample to claim C5 as stated.  `body('messages').isArray()`
accepts the empty array and the wildcard validators then run on zero
entries, so a request whose message list is empty passes validation and
the handler proceeds to open the upstream request — the claim says it is
rejected with a client error before any upstream connection. -/
theorem C5_counterexample :
    validateChatRequest emptyMsgsReq = true ∧
    (streamRoute lookupStub emptyMsgsReq (Except.ok ([], none))).upstreamAttempted =
      true :=
  ⟨rfl, rfl⟩

/-- Claim C5, amended: a request fails validation exactly when
`messages` is absent or not an array, or some entry has empty/missing
content or an unrecognized role (or an optional field fails its check);
an empty message list passes.  Every request failing validation is
answered with the validation frame alone, with no lookup calls and
without the upstream request being opened; every request passing
validation proceeds to open the upstream request. -/
theorem C5_validation_gate (lookup : LookupCall → Except (List Char) (List Char))
    (req : ChatRequest)
    (conn : Except (List Char) (List StreamChunk × Option (List Char))) :
    (validateChatRequest req = false →
      (streamRoute lookup req conn).frames = [Frame.validationError] ∧
      (streamRoute lookup req conn).calls = [] ∧
      (streamRoute lookup req conn).upstreamAttempted = false) ∧
    (validateChatRequest req = true →
      (streamRoute lookup req conn).upstreamAttempted = true) := by
  constructor
  · intro h
    unfold streamRoute
    simp [h]
  · intro h
    unfold streamRoute
    simp only [h, Bool.true_eq_false, if_false]
    match conn with
    | Except.error m => rfl
    | Except.ok (chunks, serr) => rfl

/-- Witness for C5 at a concrete invalid request (unrecognized role). -/
theorem C5_witness :
    validateChatRequest badRoleReq = false ∧
    ((streamRoute lookupStub badRoleReq (Except.error "x".toList)).frames =
        [Frame.validationError] ∧
     (streamRoute lookupStub badRoleReq (Except.error "x".toList)).calls = [] ∧
     (streamRoute lookupStub badRoleReq (Except.error "x".toList)).upstreamAttempted =
        false) :=
  ⟨rfl, (C5_validation_gate lookupStub badRoleReq (Except.error "x".toList)).1 rfl⟩

/-- Claim C6.  The claim states that when the consumer decodes an
`error` event it notifies its observers with a failure and does not
finalize a partial message as successful.  The code is wrong: in both
widget implementations the `error` branch throws inside the same `try`
whose `catch (parseError)` guards `JSON.parse`, so the throw is reduced
to a `console.warn` and never reaches `sendMessage`'s catch (the
`config.onError` observer path).  Evaluating the rollup consumer on a
stream containing `content "Hi"`, then a decodable `error` event, then a
`completion`: the observers see only message-added, message-updated and
message-received — no failure notification, and the partial message is
finalized as successful despite the error event. -/
theorem C6_error_event_swallowed :
    (rollupRun jsonParse [c6Stream]).notes =
      [RWEvent.added, RWEvent.updated "Hi".toList, RWEvent.received "Hi".toList] :=
  rfl

/-- Counterexample to claim C7 as stated.  `if (choice.delta.content)`
is a JavaScript truthiness test, and the empty string is falsy: a delta
whose content fragment is the empty string produces no content frame at
all — the loop writes nothing for it and only the `finally` sentinel
reaches the channel. -/
theorem C7_counterexample :
    emptyContentChunk.choices.head?.map (fun ch => ch.delta.content) =
      some (some []) ∧
    (streamRoute lookupStub validReq (Except.ok ([emptyContentChunk], none))).frames =
      [Frame.sentinel] :=
  ⟨rfl, rfl⟩

/-- Claim C7, amended: the relay forwards one content event for exactly
the non-empty content fragments, in upstream order (up to and including
the first finishing chunk); empty-string fragments are dropped by the
truthiness test, not forwarded as no-ops. -/
theorem C7_content_forwarding (lookup : LookupCall → Except (List Char) (List Char))
    (chunks : List StreamChunk) :
    contentTexts (processChunks lookup chunks).1 = truthyContents chunks :=
  processChunks_contents lookup chunks

/-- Witness for C7 at a concrete chunk list mixing an empty and a
non-empty fragment. -/
theorem C7_witness :
    contentTexts (processChunks lookupStub [emptyContentChunk, finChunk]).1 =
      truthyContents [emptyContentChunk, finChunk] :=
  C7_content_forwarding lookupStub [emptyContentChunk, finChunk]

/-- Claim C8: a `data: ` line whose payload fails to decode (and is not
the terminator) is skipped by the stream iterator without aborting the
stream, and the record sequence emitted for the surrounding lines is
identical to the run in which the malformed line is absent — for any
payload decoder and any placement of the malformed line. -/
theorem C8_malformed_line_skipped (parse : List Char → Option Json)
    (pre post : List (List Char)) (bad : List Char)
    (hpfx : List.isPrefixOf dataPfx bad = true)
    (hdone : trimChars (bad.drop 6) ≠ doneTok)
    (hparse : parse (trimChars (bad.drop 6)) = none)
    (hnl : ∀ l ∈ pre ++ bad :: post, nlC ∉ l) :
    (llmRun parse [wireText (pre ++ bad :: post)]).events =
      (llmRun parse [wireText (pre ++ post)]).events := by
  have hnl' : ∀ l ∈ pre ++ post, nlC ∉ l := by
    intro l hl
    apply hnl
    rcases List.mem_append.mp hl with h | h
    · exact List.mem_append.mpr (Or.inl h)
    · exact List.mem_append.mpr (Or.inr (List.mem_cons.mpr (Or.inr h)))
  rw [llmRun_events_canonical, llmRun_events_canonical]
  have h1 : ([wireText (pre ++ bad :: post)] : List (List Char)).flatten =
      wireText (pre ++ bad :: post) := by simp
  have h2 : ([wireText (pre ++ post)] : List (List Char)).flatten =
      wireText (pre ++ post) := by simp
  rw [h1, h2, (completeLines_wireText hnl).1, (completeLines_wireText hnl').1,
    procLinesStop_skip_malformed parse pre post bad hpfx hdone hparse]

/-- Witness for C8: a concrete malformed line between two decodable
lines, with the concrete decoder. -/
theorem C8_witness :
    List.isPrefixOf dataPfx badLine = true ∧
    trimChars (badLine.drop 6) ≠ doneTok ∧
    jsonParse (trimChars (badLine.drop 6)) = none ∧
    (∀ l ∈ [contentLineHi] ++ badLine :: [completionLineStop], nlC ∉ l) ∧
    (llmRun jsonParse [wireText ([contentLineHi] ++ badLine :: [completionLineStop])]).events =
      (llmRun jsonParse [wireText ([contentLineHi] ++ [completionLineStop])]).events :=
  ⟨by decide, by decide, rfl, by decide,
    C8_malformed_line_skipped jsonParse [contentLineHi] [completionLineStop] badLine
      (by decide) (by decide) rfl (by decide)⟩

/-- Claim C9: when the upstream connection cannot be established
(`generateStreamingResponse` throws: connection refused, authentication
failure, non-2xx status — `axios` raises on all of these), the handler's
catch writes exactly one error frame carrying the failure description,
the finally writes the sentinel, and nothing else is written: no content
frame precedes the error, no lookup runs, and no exception escapes the
handler (the model is a total function on this outcome). -/
theorem C9_upstream_failure_single_error
    (lookup : LookupCall → Except (List Char) (List Char)) (req : ChatRequest)
    (msg : List Char) (h : validateChatRequest req = true) :
    (streamRoute lookup req (Except.error msg)).frames =
      [Frame.errorFrame msg, Frame.sentinel] ∧
    (streamRoute lookup req (Except.error msg)).calls = [] := by
  unfold streamRoute
  simp [h]

/-- Witness for C9 at a concrete valid request and a concrete
connection failure. -/
theorem C9_witness :
    validateChatRequest validReq = true ∧
    ((streamRoute lookupStub validReq (Except.error "connect ECONNREFUSED".toList)).frames =
        [Frame.errorFrame "connect ECONNREFUSED".toList, Frame.sentinel] ∧
     (streamRoute lookupStub validReq (Except.error "connect ECONNREFUSED".toList)).calls =
        []) :=
  ⟨rfl, C9_upstream_failure_single_error lookupStub validReq
    "connect ECONNREFUSED".toList rfl⟩

/-- Claim C10: the buffering line-splitting loop shared by the two
buffered stream consumers satisfies the invariant that, starting from
the empty buffer, after any sequence of inbound chunks the retained
buffer is exactly the text following the last newline received so far
(in particular it never contains a newline), and the lines handed to
the line processor are exactly the complete lines of the concatenated
input, in order and each exactly once. -/
theorem C10_splitter_invariant (cs : List (List Char)) :
    (runFeed [] cs).2 = completeLines cs.flatten ∧
    (runFeed [] cs).1 = tailSeg cs.flatten ∧
    nlC ∉ (runFeed [] cs).1 :=
  ⟨(runFeed_correct cs).1, (runFeed_correct cs).2,
    runFeed_buf_noNl cs [] (by simp)⟩

/-- Witness for C10 at a concrete chunk sequence with lines split
across chunk boundaries. -/
theorem C10_witness :
    (runFeed [] ["ab".toList, ("c" ++ String.mk [nlC] ++ "d").toList, "e".toList]).2 =
      completeLines (["ab".toList, ("c" ++ String.mk [nlC] ++ "d").toList, "e".toList].flatten) ∧
    (runFeed [] ["ab".toList, ("c" ++ String.mk [nlC] ++ "d").toList, "e".toList]).1 =
      tailSeg (["ab".toList, ("c" ++ String.mk [nlC] ++ "d").toList, "e".toList].flatten) ∧
    nlC ∉ (runFeed [] ["ab".toList, ("c" ++ String.mk [nlC] ++ "d").toList, "e".toList]).1 :=
  C10_splitter_invariant ["ab".toList, ("c" ++ String.mk [nlC] ++ "d").toList, "e".toList]
